import Mathlib

/-!
Verification of the catalog persistence and entity-reconciliation core of the
Content-Management-System repository (`src/main.py`), as a shallow embedding.

Conventions of the embedding:
* Python dicts (`self.authors`, `self.categories`) become insertion-ordered
  association lists `List (String × _)`; lookup scans from the front, and a
  fresh key is appended at the back, matching CPython dict semantics for the
  operations the program performs.
* The persisted JSON document becomes the record type `Document`; the raw JSON
  text layer is modelled further below for the load/save claims.
* `datetime.now().strftime(...)` is an external clock; operations that read it
  take the formatted timestamp as an explicit `now : String` argument.
* The non-serialized back-reference lists `Author.__articles` and
  `Category.__articles` are write-only in the program (appended by the
  `Article` constructor, never read) and mutually recursive with `Article`;
  they are omitted from the embedded entity records.
-/

/-- A persisted author record: one element of `data["authors"]`. -/
structure AuthorRec where
  name : String
  email : String
deriving DecidableEq

/-- A persisted category record: one element of `data["categories"]`. -/
structure CategoryRec where
  name : String
deriving DecidableEq

/-- A persisted article record: one element of `data["articles"]`, storing the
author by email and the category by name (normalized foreign keys). -/
structure ArticleRec where
  title : String
  content : String
  author : String
  category : String
  published_at : String
deriving DecidableEq

/-- The persisted aggregate `self.data`: three ordered lists. -/
structure Document where
  authors : List AuthorRec
  categories : List CategoryRec
  articles : List ArticleRec
deriving DecidableEq

/-- The document `CatalogManager.load` substitutes when the backing file is
absent: all three lists empty. -/
def emptyDocument : Document := ⟨[], [], []⟩

/-- In-memory `Author` entity (class `Author` in `src/main.py`); `name` and
`email` are read-only properties there. -/
structure Author where
  name : String
  email : String
deriving DecidableEq

/-- In-memory `Category` entity (class `Category` in `src/main.py`). -/
structure Category where
  name : String
deriving DecidableEq

/-- In-memory `Article` entity (class `Article`): `published_at` is `None`
until `publish()` stores the creation timestamp. -/
structure Article where
  title : String
  content : String
  author : Author
  category : Category
  published_at : Option String
deriving DecidableEq

/-- Dict lookup `m[k]` / `k in m`: first (unique) binding of `k`. -/
def dictFind (k : String) : List (String × α) → Option α
  | [] => none
  | (k2, v) :: m => if k2 = k then some v else dictFind k m

/-- Dict assignment `m[k] = v`: overwrite in place if `k` is bound, else append
(CPython preserves the original position of an overwritten key). -/
def dictSet (k : String) (v : α) : List (String × α) → List (String × α)
  | [] => [(k, v)]
  | (k2, v2) :: m => if k2 = k then (k2, v) :: m else (k2, v2) :: dictSet k v m

/-- Model of `EntityFactory.get_or_create_author`: return the `Author` stored under
`email` if present (leaving the mapping untouched), else construct one from
`name`/`email`, bind it under `email`, and return it. -/
def get_or_create_author (name email : String) (authors : List (String × Author)) :
    Author × List (String × Author) :=
  match dictFind email authors with
  | some a => (a, authors)
  | none => (⟨name, email⟩, authors ++ [(email, ⟨name, email⟩)])

/-- Model of `EntityFactory.get_or_create_category`: symmetric, keyed by name. -/
def get_or_create_category (name : String) (categories : List (String × Category)) :
    Category × List (String × Category) :=
  match dictFind name categories with
  | some c => (c, categories)
  | none => (⟨name⟩, categories ++ [(name, ⟨name⟩)])

/-- Model of `ArticleFactory.create_article`: construct the article and immediately
`publish()` it, stamping the current time. -/
def create_article (title content : String) (author : Author) (category : Category)
    (now : String) : Article :=
  { title := title, content := content, author := author, category := category,
    published_at := some now }

/-- The in-memory state of a `CatalogManager`: the document plus the two
natural-key dictionaries. -/
structure CatalogManager where
  data : Document
  authors : List (String × Author)
  categories : List (String × Category)
deriving DecidableEq

/-- Model of `CatalogManager.__init__` after `load` returned document `d`: rebuild the
author-by-email and category-by-name dictionaries by comprehension over the
document's lists (later duplicates overwrite, as in a dict comprehension). -/
def mkCatalogManager (d : Document) : CatalogManager :=
  { data := d
  , authors := d.authors.foldl (fun m a => dictSet a.email ⟨a.name, a.email⟩ m) []
  , categories := d.categories.foldl (fun m c => dictSet c.name ⟨c.name⟩ m) [] }

/-- A manager freshly constructed over the empty document. -/
def emptyManager : CatalogManager := mkCatalogManager emptyDocument

/-- Steps 1-5 of `CatalogManager.add_article` (everything before `self.save()`):
resolve/create the author and category, construct and publish the article,
conditionally append normalized author/category records, and append the
article record. Returns the updated in-memory state and the `Article`. -/
def add_article_data (m : CatalogManager)
    (name email category_name title content now : String) :
    CatalogManager × Article :=
  let ra := get_or_create_author name email m.authors
  let rc := get_or_create_category category_name m.categories
  let article := create_article title content ra.1 rc.1 now
  let das := if m.data.authors.any fun a => a.email == ra.1.email
    then m.data.authors else m.data.authors ++ [⟨ra.1.name, ra.1.email⟩]
  let dcs := if m.data.categories.any fun c => c.name == rc.1.name
    then m.data.categories else m.data.categories ++ [⟨rc.1.name⟩]
  let dar := m.data.articles ++ [⟨title, content, ra.1.email, rc.1.name, now⟩]
  ({ data := ⟨das, dcs, dar⟩, authors := ra.2, categories := rc.2 }, article)

/-- Model of `CatalogManager.list_articles`: the document's article list, as-is. -/
def list_articles (m : CatalogManager) : List ArticleRec := m.data.articles

/-- Model of `CatalogManager.show_article`: the article selected by the 0-based `index`
(`None` selected when the guard `0 <= index < len(articles)` rejects it; the
method only reads `self.data`, so the document is untouched either way). The
index is an `Int` because the CLI computes it as `escolha - 1`. -/
def show_article (d : Document) (index : Int) : Option ArticleRec :=
  if 0 ≤ index ∧ index < (d.articles.length : Int) then d.articles[index.toNat]?
  else none

/-- One user-level `add_article` request: the five prompted strings plus the
wall-clock timestamp the call would observe. -/
structure AddRequest where
  name : String
  email : String
  category : String
  title : String
  content : String
  now : String
deriving DecidableEq

/-- The normalized article record an `add_article` call appends for a request. -/
def articleRecOf (r : AddRequest) : ArticleRec :=
  ⟨r.title, r.content, r.email, r.category, r.now⟩

/-- The in-memory effect of one `add_article` call for a request. -/
def applyAdd (m : CatalogManager) (r : AddRequest) : CatalogManager :=
  (add_article_data m r.name r.email r.category r.title r.content r.now).1

/-- A sequence of successful `add_article` calls, in order. -/
def runAdds (m : CatalogManager) : List AddRequest → CatalogManager
  | [] => m
  | r :: rs => runAdds (applyAdd m r) rs

/-! ### Basic facts about the dictionaries and the reconciler -/

theorem dictFind_append_self (k : String) (v : α) :
    ∀ m : List (String × α), dictFind k m = none → dictFind k (m ++ [(k, v)]) = some v := by
  intro m
  induction m with
  | nil => intro _; simp [dictFind]
  | cons p m ih =>
    intro h
    rw [dictFind] at h
    by_cases hk : p.1 = k
    · simp [hk] at h
    · rw [List.cons_append, dictFind]
      simp only [hk, if_false]
      exact ih (by simpa [hk] using h)

/-- Every binding produced by the author dictionary operations maps an email to
an `Author` whose `email` field is that key. -/
def AuthorsKeyed (m : List (String × Author)) : Prop :=
  ∀ p ∈ m, (p.2 : Author).email = p.1

/-- Category analogue of `AuthorsKeyed`. -/
def CategoriesKeyed (m : List (String × Category)) : Prop :=
  ∀ p ∈ m, (p.2 : Category).name = p.1

theorem dictFind_mem (k : String) (v : α) :
    ∀ m : List (String × α), dictFind k m = some v → (k, v) ∈ m := by
  intro m
  induction m with
  | nil => intro h; simp [dictFind] at h
  | cons p m ih =>
    intro h
    rw [dictFind] at h
    by_cases hk : p.1 = k
    · simp only [hk, if_true, Option.some.injEq] at h
      rw [List.mem_cons]
      left
      rw [← hk, ← h]
    · rw [List.mem_cons]
      right
      exact ih (by simpa [hk] using h)

theorem get_or_create_author_email (name email : String) (m : List (String × Author))
    (hm : AuthorsKeyed m) : (get_or_create_author name email m).1.email = email := by
  rw [get_or_create_author]
  cases h : dictFind email m with
  | none => rfl
  | some a => exact hm (email, a) (dictFind_mem email a m h)

theorem get_or_create_category_name (name : String) (m : List (String × Category))
    (hm : CategoriesKeyed m) : (get_or_create_category name m).1.name = name := by
  rw [get_or_create_category]
  cases h : dictFind name m with
  | none => rfl
  | some c => exact hm (name, c) (dictFind_mem name c m h)

theorem authorsKeyed_after (name email : String) (m : List (String × Author))
    (hm : AuthorsKeyed m) : AuthorsKeyed (get_or_create_author name email m).2 := by
  rw [get_or_create_author]
  cases h : dictFind email m with
  | none =>
    intro p hp
    rcases List.mem_append.mp hp with h1 | h2
    · exact hm p h1
    · rw [List.mem_singleton] at h2
      rw [h2]
  | some a => exact hm

theorem categoriesKeyed_after (name : String) (m : List (String × Category))
    (hm : CategoriesKeyed m) : CategoriesKeyed (get_or_create_category name m).2 := by
  rw [get_or_create_category]
  cases h : dictFind name m with
  | none =>
    intro p hp
    rcases List.mem_append.mp hp with h1 | h2
    · exact hm p h1
    · rw [List.mem_singleton] at h2
      rw [h2]
  | some c => exact hm

theorem dictSet_keyed (m : List (String × Author)) (a : Author)
    (hm : AuthorsKeyed m) : AuthorsKeyed (dictSet a.email a m) := by
  induction m with
  | nil =>
    intro p hp
    rw [dictSet, List.mem_singleton] at hp
    rw [hp]
  | cons q m ih =>
    intro p hp
    rw [dictSet] at hp
    by_cases hk : q.1 = a.email
    · simp only [hk, if_true, List.mem_cons] at hp
      rcases hp with h1 | h2
      · rw [h1]
      · exact hm p (List.mem_cons_of_mem q h2)
    · simp only [hk, if_false, List.mem_cons] at hp
      rcases hp with h1 | h2
      · rw [h1]; exact hm q (List.mem_cons_self q m)
      · exact ih (fun p hp => hm p (List.mem_cons_of_mem q hp)) p h2

theorem dictSet_keyed_cat (m : List (String × Category)) (c : Category)
    (hm : CategoriesKeyed m) : CategoriesKeyed (dictSet c.name c m) := by
  induction m with
  | nil =>
    intro p hp
    rw [dictSet, List.mem_singleton] at hp
    rw [hp]
  | cons q m ih =>
    intro p hp
    rw [dictSet] at hp
    by_cases hk : q.1 = c.name
    · simp only [hk, if_true, List.mem_cons] at hp
      rcases hp with h1 | h2
      · rw [h1]
      · exact hm p (List.mem_cons_of_mem q h2)
    · simp only [hk, if_false, List.mem_cons] at hp
      rcases hp with h1 | h2
      · rw [h1]; exact hm q (List.mem_cons_self q m)
      · exact ih (fun p hp => hm p (List.mem_cons_of_mem q hp)) p h2

theorem mkCatalogManager_authorsKeyed (d : Document) :
    AuthorsKeyed (mkCatalogManager d).authors := by
  rw [mkCatalogManager]
  suffices h : ∀ (l : List AuthorRec) (m : List (String × Author)), AuthorsKeyed m →
      AuthorsKeyed (l.foldl (fun m a => dictSet a.email ⟨a.name, a.email⟩ m) m) by
    exact h d.authors [] (by intro p hp; simp at hp)
  intro l
  induction l with
  | nil => intro m hm; exact hm
  | cons a l ih =>
    intro m hm
    exact ih _ (dictSet_keyed m ⟨a.name, a.email⟩ hm)

theorem mkCatalogManager_categoriesKeyed (d : Document) :
    CategoriesKeyed (mkCatalogManager d).categories := by
  rw [mkCatalogManager]
  suffices h : ∀ (l : List CategoryRec) (m : List (String × Category)), CategoriesKeyed m →
      CategoriesKeyed (l.foldl (fun m c => dictSet c.name ⟨c.name⟩ m) m) by
    exact h d.categories [] (by intro p hp; simp at hp)
  intro l
  induction l with
  | nil => intro m hm; exact hm
  | cons c l ih =>
    intro m hm
    exact ih _ (dictSet_keyed_cat m ⟨c.name⟩ hm)

/-- A manager whose dictionaries respect the natural keys. -/
def Keyed (m : CatalogManager) : Prop :=
  AuthorsKeyed m.authors ∧ CategoriesKeyed m.categories

theorem mkCatalogManager_keyed (d : Document) : Keyed (mkCatalogManager d) :=
  ⟨mkCatalogManager_authorsKeyed d, mkCatalogManager_categoriesKeyed d⟩

theorem applyAdd_keyed (m : CatalogManager) (r : AddRequest) (hm : Keyed m) :
    Keyed (applyAdd m r) :=
  ⟨authorsKeyed_after r.name r.email m.authors hm.1,
   categoriesKeyed_after r.category m.categories hm.2⟩

/-- The author list after one call, by unfolding `add_article_data` (definitional). -/
theorem applyAdd_authors (m : CatalogManager) (r : AddRequest) :
    (applyAdd m r).data.authors =
      if (m.data.authors.any fun a =>
            a.email == (get_or_create_author r.name r.email m.authors).1.email) = true
      then m.data.authors
      else m.data.authors ++ [⟨(get_or_create_author r.name r.email m.authors).1.name,
        (get_or_create_author r.name r.email m.authors).1.email⟩] := rfl

/-- The category list after one call, by unfolding `add_article_data` (definitional). -/
theorem applyAdd_categories (m : CatalogManager) (r : AddRequest) :
    (applyAdd m r).data.categories =
      if (m.data.categories.any fun c =>
            c.name == (get_or_create_category r.category m.categories).1.name) = true
      then m.data.categories
      else m.data.categories ++
        [⟨(get_or_create_category r.category m.categories).1.name⟩] := rfl

/-- On a keyed manager, one `add_article` call appends exactly the normalized
record built from the request. -/
theorem applyAdd_articles (m : CatalogManager) (r : AddRequest) (hm : Keyed m) :
    (applyAdd m r).data.articles = m.data.articles ++ [articleRecOf r] := by
  rw [applyAdd, add_article_data]
  simp only
  rw [articleRecOf, get_or_create_author_email r.name r.email m.authors hm.1,
    get_or_create_category_name r.category m.categories hm.2]

theorem runAdds_keyed (rs : List AddRequest) :
    ∀ m : CatalogManager, Keyed m → Keyed (runAdds m rs) := by
  induction rs with
  | nil => intro m hm; exact hm
  | cons r rs ih => intro m hm; exact ih (applyAdd m r) (applyAdd_keyed m r hm)

theorem runAdds_articles (rs : List AddRequest) :
    ∀ m : CatalogManager, Keyed m →
      (runAdds m rs).data.articles = m.data.articles ++ rs.map articleRecOf := by
  induction rs with
  | nil => intro m _; simp [runAdds]
  | cons r rs ih =>
    intro m hm
    rw [runAdds, ih (applyAdd m r) (applyAdd_keyed m r hm),
      applyAdd_articles m r hm]
    simp

/-! ### Claim theorems on the in-memory operations -/

/-- C1. Every `add_article` call, at any point of a call sequence, appends one
article record whose author email occurs among the document's author emails and
whose category name occurs among the document's category names afterwards. -/
theorem addArticle_referential_integrity (d : Document) (rs : List AddRequest)
    (r : AddRequest) :
    ∃ rec : ArticleRec,
      (applyAdd (runAdds (mkCatalogManager d) rs) r).data.articles
          = (runAdds (mkCatalogManager d) rs).data.articles ++ [rec]
        ∧ rec.author ∈ (applyAdd (runAdds (mkCatalogManager d) rs) r).data.authors.map
            AuthorRec.email
        ∧ rec.category ∈ (applyAdd (runAdds (mkCatalogManager d) rs) r).data.categories.map
            CategoryRec.name := by
  set m := runAdds (mkCatalogManager d) rs with hmdef
  have hk : Keyed m := runAdds_keyed rs (mkCatalogManager d) (mkCatalogManager_keyed d)
  refine ⟨articleRecOf r, applyAdd_articles m r hk, ?_, ?_⟩
  · rw [articleRecOf]
    rw [applyAdd_authors m r, get_or_create_author_email r.name r.email m.authors hk.1]
    by_cases h : (m.data.authors.any fun a => a.email == r.email) = true
    · rw [if_pos h]
      rw [List.any_eq_true] at h
      obtain ⟨a, ha, he⟩ := h
      rw [List.mem_map]
      exact ⟨a, ha, by rwa [beq_iff_eq] at he⟩
    · rw [if_neg h]
      simp
  · rw [articleRecOf]
    rw [applyAdd_categories m r, get_or_create_category_name r.category m.categories hk.2]
    by_cases h : (m.data.categories.any fun c => c.name == r.category) = true
    · rw [if_pos h]
      rw [List.any_eq_true] at h
      obtain ⟨c, hc, he⟩ := h
      rw [List.mem_map]
      exact ⟨c, hc, by rwa [beq_iff_eq] at he⟩
    · rw [if_neg h]
      simp

theorem runAdds_take (rs : List AddRequest) (k : Nat) (m : CatalogManager) (hm : Keyed m) :
    (runAdds m (rs.take k)).data.articles = m.data.articles ++ (rs.take k).map articleRecOf :=
  runAdds_articles (rs.take k) m hm

/-- C2. Resolving the same email twice returns the stored author both times,
leaves the mapping fixed after the first call (so its size grows by at most one
binding however often the email is resolved), and an already-known email is
answered by the stored author with its first-seen name, the mapping untouched. -/
theorem getOrCreateAuthor_idempotent (n1 n2 e : String) (m : List (String × Author)) :
    get_or_create_author n2 e (get_or_create_author n1 e m).2
        = ((get_or_create_author n1 e m).1, (get_or_create_author n1 e m).2)
      ∧ (get_or_create_author n1 e m).2.length ≤ m.length + 1
      ∧ ∀ a : Author, dictFind e m = some a → get_or_create_author n1 e m = (a, m) := by
  cases h : dictFind e m with
  | some a =>
    have h1 : get_or_create_author n1 e m = (a, m) := by
      simp [get_or_create_author, h]
    refine ⟨?_, ?_, ?_⟩
    · rw [h1]
      simp [get_or_create_author, h]
    · rw [h1]
      exact Nat.le_succ m.length
    · intro a2 h2
      rw [h1, Option.some.inj h2]
  | none =>
    have h1 : get_or_create_author n1 e m = (⟨n1, e⟩, m ++ [(e, ⟨n1, e⟩)]) := by
      simp [get_or_create_author, h]
    have h2 : dictFind e (m ++ [(e, (⟨n1, e⟩ : Author))]) = some ⟨n1, e⟩ :=
      dictFind_append_self e ⟨n1, e⟩ m h
    refine ⟨?_, ?_, ?_⟩
    · rw [h1]
      simp [get_or_create_author, h2]
    · rw [h1]
      simp
    · intro a2 hc
      exact Option.noConfusion hc

/-- C2 witness: a mapping that already knows `ana@x.com` under the name `Ana`
answers a call with a different name by the stored author, unchanged. -/
theorem getOrCreateAuthor_idempotent_witness :
    get_or_create_author "Bia" "ana@x.com" [("ana@x.com", ⟨"Ana", "ana@x.com"⟩)]
      = (⟨"Ana", "ana@x.com"⟩, [("ana@x.com", ⟨"Ana", "ana@x.com"⟩)]) :=
  (getOrCreateAuthor_idempotent "Bia" "X" "ana@x.com"
      [("ana@x.com", ⟨"Ana", "ana@x.com"⟩)]).2.2 ⟨"Ana", "ana@x.com"⟩ (by decide)

/-- C3. After the calls of `rs` starting from the empty document, the article
list is exactly the normalized records of `rs` in call order; its length is the
number of calls; and the list after only the first `k` calls is the length-`k`
initial segment of the final list, so earlier entries are never altered. -/
theorem addArticle_append_only (rs : List AddRequest) :
    (runAdds emptyManager rs).data.articles = rs.map articleRecOf
      ∧ (runAdds emptyManager rs).data.articles.length = rs.length
      ∧ ∀ k : Nat, (runAdds emptyManager (rs.take k)).data.articles
          = ((runAdds emptyManager rs).data.articles).take k := by
  have hk : Keyed emptyManager := mkCatalogManager_keyed emptyDocument
  have hnil : emptyManager.data.articles = [] := rfl
  have h1 : ∀ l : List AddRequest,
      (runAdds emptyManager l).data.articles = l.map articleRecOf := by
    intro l
    rw [runAdds_articles l emptyManager hk, hnil, List.nil_append]
  refine ⟨h1 rs, ?_, ?_⟩
  · rw [h1 rs, List.length_map]
  · intro k
    rw [h1 (rs.take k), h1 rs, List.map_take]

/-- One `add_article` call never removes an author email already listed, and adds at
most the resolved one. -/
theorem applyAdd_nodup (m : CatalogManager) (r : AddRequest)
    (ha : (m.data.authors.map AuthorRec.email).Nodup)
    (hc : (m.data.categories.map CategoryRec.name).Nodup) :
    ((applyAdd m r).data.authors.map AuthorRec.email).Nodup
      ∧ ((applyAdd m r).data.categories.map CategoryRec.name).Nodup := by
  constructor
  · rw [applyAdd_authors m r]
    by_cases h : (m.data.authors.any fun a =>
        a.email == (get_or_create_author r.name r.email m.authors).1.email) = true
    · rw [if_pos h]
      exact ha
    · rw [if_neg h, List.map_append]
      simp only [List.map_cons, List.map_nil]
      rw [List.nodup_append]
      refine ⟨ha, List.nodup_singleton _, ?_⟩
      intro x hx hx2
      rw [List.mem_singleton] at hx2
      rw [List.mem_map] at hx
      obtain ⟨a, hmem, heq⟩ := hx
      apply h
      rw [List.any_eq_true]
      exact ⟨a, hmem, by rw [beq_iff_eq, heq, hx2]⟩
  · rw [applyAdd_categories m r]
    by_cases h : (m.data.categories.any fun c =>
        c.name == (get_or_create_category r.category m.categories).1.name) = true
    · rw [if_pos h]
      exact hc
    · rw [if_neg h, List.map_append]
      simp only [List.map_cons, List.map_nil]
      rw [List.nodup_append]
      refine ⟨hc, List.nodup_singleton _, ?_⟩
      intro x hx hx2
      rw [List.mem_singleton] at hx2
      rw [List.mem_map] at hx
      obtain ⟨c, hmem, heq⟩ := hx
      apply h
      rw [List.any_eq_true]
      exact ⟨c, hmem, by rw [beq_iff_eq, heq, hx2]⟩

/-- C4. In every state reachable from the empty document by `add_article`
calls, no two author records share an email and no two category records share
a name. -/
theorem document_natural_keys_unique (rs : List AddRequest) :
    ((runAdds emptyManager rs).data.authors.map AuthorRec.email).Nodup
      ∧ ((runAdds emptyManager rs).data.categories.map CategoryRec.name).Nodup := by
  suffices h : ∀ (l : List AddRequest) (m : CatalogManager),
      (m.data.authors.map AuthorRec.email).Nodup →
      (m.data.categories.map CategoryRec.name).Nodup →
      ((runAdds m l).data.authors.map AuthorRec.email).Nodup
        ∧ ((runAdds m l).data.categories.map CategoryRec.name).Nodup by
    exact h rs emptyManager (by rw [show emptyManager.data.authors = [] from rfl]; simp)
      (by rw [show emptyManager.data.categories = [] from rfl]; simp)
  intro l
  induction l with
  | nil => intro m ha hc; exact ⟨ha, hc⟩
  | cons r rs ih =>
    intro m ha hc
    have h2 := applyAdd_nodup m r ha hc
    exact ih (applyAdd m r) h2.1 h2.2

/-- C6. `show_article` yields the record at the 0-based index exactly when
`0 <= index < len`, yields no record otherwise, and in particular selects no
record at index 5 of a two-article document. -/
theorem getArticle_bounds (d : Document) (i : Int) :
    (0 ≤ i ∧ i < (d.articles.length : Int) →
        show_article d i = d.articles[i.toNat]?
          ∧ (show_article d i).isSome = true)
      ∧ (¬(0 ≤ i ∧ i < (d.articles.length : Int)) → show_article d i = none)
      ∧ (d.articles.length = 2 → show_article d 5 = none) := by
  refine ⟨?_, ?_, ?_⟩
  · intro h
    have hlt : i.toNat < d.articles.length := by omega
    constructor
    · rw [show_article, if_pos h]
    · rw [show_article, if_pos h, List.getElem?_eq_getElem hlt]
      rfl
  · intro h
    rw [show_article, if_neg h]
  · intro h2
    rw [show_article, if_neg]
    rw [h2]
    intro hc
    omega

/-- A two-article document for exercising positional lookups. -/
def sampleDocTwo : Document :=
  ⟨[⟨"Ana", "ana@x.com"⟩], [⟨"Tech"⟩],
   [⟨"Hello", "World", "ana@x.com", "Tech", "2024-01-01 00:00:00"⟩,
    ⟨"Second", "Post", "ana@x.com", "Tech", "2024-01-02 00:00:00"⟩]⟩

/-- C6 witness: on the two-article document, index 0 selects the stored record
and index 5 selects nothing. -/
theorem getArticle_bounds_witness :
    (show_article sampleDocTwo 0 = sampleDocTwo.articles[(0 : Int).toNat]?
        ∧ (show_article sampleDocTwo 0).isSome = true)
      ∧ show_article sampleDocTwo 5 = none :=
  ⟨(getArticle_bounds sampleDocTwo 0).1 ⟨by decide, by decide⟩,
   (getArticle_bounds sampleDocTwo 5).2.2 (by decide)⟩

/-- C7. From the empty document, the Ana/Tech scenario: the first call leaves
one article record carrying the first call's timestamp; the second call with
the same author email and category name leaves one author record, one category
record, and two article records, in call order. -/
theorem addArticle_ana_tech (t1 t2 : String) :
    list_articles (applyAdd emptyManager ⟨"Ana", "ana@x.com", "Tech", "Hello", "World", t1⟩)
        = [⟨"Hello", "World", "ana@x.com", "Tech", t1⟩]
      ∧ (applyAdd (applyAdd emptyManager ⟨"Ana", "ana@x.com", "Tech", "Hello", "World", t1⟩)
            ⟨"Ana", "ana@x.com", "Tech", "Second", "Post", t2⟩).data
          = ⟨[⟨"Ana", "ana@x.com"⟩], [⟨"Tech"⟩],
             [⟨"Hello", "World", "ana@x.com", "Tech", t1⟩,
              ⟨"Second", "Post", "ana@x.com", "Tech", t2⟩]⟩ :=
  ⟨rfl, rfl⟩

/-- C10. A negative index (as produced by CLI input `0` converted to 0-based)
selects nothing: the `0 <= index` guard rejects it before Python's negative
indexing could wrap around, so in particular no stored record is selected. -/
theorem showArticle_negative_index (d : Document) (i : Int) (h : i < 0) :
    show_article d i = none ∧ ∀ rec ∈ d.articles, show_article d i ≠ some rec := by
  have h1 : show_article d i = none := by
    rw [show_article, if_neg]
    intro hc
    omega
  refine ⟨h1, ?_⟩
  intro rec _
  rw [h1]
  simp

/-- C10 witness: index `-1` on the two-article document selects nothing rather
than wrapping to the last article. -/
theorem showArticle_negative_index_witness :
    show_article sampleDocTwo (-1) = none :=
  (showArticle_negative_index sampleDocTwo (-1) (by decide)).1

/-!
### The JSON text layer

`save` writes `self.data` with `json.dump(..., indent=4)`; `load` reads it
back with `json.load`. The document only ever contains strings, arrays and
objects, so the embedded value type covers exactly that JSON fragment. The
serializer mirrors `json.dump`: 4-space indentation, `", "`/`": "`-style
separators for indented output, and backslash escapes in strings (the model
emits every control character in `\u00XX` form and leaves other characters
raw; Python abbreviates a few control characters and, by default, also
escapes non-ASCII characters — alternative spellings of the same JSON string
value, parsed back identically). The parser is total via a character-count
fuel argument; `parseTop` supplies enough fuel for any input it can accept.
-/

/-- A JSON value of the fragment the catalog document uses. -/
inductive Json : Type
  | str : String → Json
  | obj : List (String × Json) → Json
  | arr : List Json → Json

/-- The lower-case hex digit for `n < 16`. -/
def hexDig (n : Nat) : Char :=
  if n < 10 then Char.ofNat (48 + n) else Char.ofNat (87 + n)

/-- JSON escape of one character: quote and backslash get two-character
escapes, control characters get `\u00XX`, anything else is itself. -/
def escChar (c : Char) : List Char :=
  if c = '"' then ['\\', '"']
  else if c = '\\' then ['\\', '\\']
  else if c.toNat < 32 then
    ['\\', 'u', '0', '0', hexDig (c.toNat / 16), hexDig (c.toNat % 16)]
  else [c]

/-- JSON escape of a character sequence. -/
def escBody : List Char → List Char
  | [] => []
  | c :: cs => escChar c ++ escBody cs

/-- A JSON string literal: escaped content between double quotes. -/
def quoteL (s : String) : List Char := '"' :: (escBody s.data ++ ['"'])

/-- Newline plus the 4-space-per-level indentation `json.dump(indent=4)`
writes before each element of a non-empty array or object. -/
def nlIndent (lvl : Nat) : List Char := '\n' :: List.replicate (4 * lvl) ' '

mutual

/-- Pretty-print a value at nesting level `lvl`, as `json.dump(..., indent=4)`
lays it out. -/
def prettyL (lvl : Nat) (j : Json) : List Char :=
  match j with
  | .str s => quoteL s
  | .arr [] => ['[', ']']
  | .arr (x :: xs) =>
      '[' :: (nlIndent (lvl + 1) ++ itemsL (lvl + 1) x xs ++ nlIndent lvl ++ [']'])
  | .obj [] => ['\x7b', '\x7d']
  | .obj ((k, v) :: fs) =>
      '\x7b' :: (nlIndent (lvl + 1) ++ fieldsL (lvl + 1) k v fs ++ nlIndent lvl ++ ['\x7d'])
termination_by sizeOf j
decreasing_by all_goals (simp_wf; try omega)

/-- The comma-separated elements of a non-empty array, each after its
newline-plus-indent (the first element's indent is emitted by `prettyL`). -/
def itemsL (lvl : Nat) (x : Json) (xs : List Json) : List Char :=
  match xs with
  | [] => prettyL lvl x
  | y :: ys => prettyL lvl x ++ ',' :: (nlIndent lvl ++ itemsL lvl y ys)
termination_by sizeOf x + sizeOf xs
decreasing_by all_goals (simp_wf; try omega)

/-- The comma-separated `"key": value` members of a non-empty object. -/
def fieldsL (lvl : Nat) (k : String) (v : Json) (fs : List (String × Json)) : List Char :=
  match fs with
  | [] => quoteL k ++ ':' :: ' ' :: prettyL lvl v
  | (k2, v2) :: gs =>
      quoteL k ++ ':' :: ' ' :: prettyL lvl v ++ ',' :: (nlIndent lvl ++ fieldsL lvl k2 v2 gs)
termination_by sizeOf v + sizeOf fs
decreasing_by all_goals (simp_wf; try omega)

end

/-- JSON whitespace. -/
def isWsChar (c : Char) : Bool := c = ' ' || c = '\n' || c = '\t' || c = '\r'

/-- Drop leading whitespace. -/
def skipWs : List Char → List Char
  | [] => []
  | c :: cs => if isWsChar c then skipWs cs else c :: cs

/-- Value of one hex digit character. -/
def hexVal (c : Char) : Option Nat :=
  if '0' ≤ c ∧ c ≤ '9' then some (c.toNat - 48)
  else if 'a' ≤ c ∧ c ≤ 'f' then some (c.toNat - 87)
  else if 'A' ≤ c ∧ c ≤ 'F' then some (c.toNat - 55)
  else none

/-- The character denoted by a single-character escape, if legal. -/
def shortEsc (c : Char) : Option Char :=
  if c = '"' then some '"'
  else if c = '\\' then some '\\'
  else if c = '/' then some '/'
  else if c = 'n' then some '\n'
  else if c = 't' then some '\t'
  else if c = 'r' then some '\r'
  else if c = 'b' then some (Char.ofNat 8)
  else if c = 'f' then some (Char.ofNat 12)
  else none

/-- Parse the body of a string literal (after the opening quote), up to and
including the closing quote; returns the decoded content and the remainder. -/
def strBody : List Char → Option (List Char × List Char)
  | [] => none
  | c :: cs =>
    if c = '"' then some ([], cs)
    else if c = '\\' then
      match cs with
      | 'u' :: h1 :: h2 :: h3 :: h4 :: cs2 =>
        match hexVal h1, hexVal h2, hexVal h3, hexVal h4 with
        | some v1, some v2, some v3, some v4 =>
          match strBody cs2 with
          | some (s, r) => some (Char.ofNat (((v1 * 16 + v2) * 16 + v3) * 16 + v4) :: s, r)
          | none => none
        | _, _, _, _ => none
      | e :: cs2 =>
        match shortEsc e with
        | some ch =>
          match strBody cs2 with
          | some (s, r) => some (ch :: s, r)
          | none => none
        | none => none
      | [] => none
    else
      match strBody cs with
      | some (s, r) => some (c :: s, r)
      | none => none

mutual

/-- Parse one JSON value of the fragment, consuming leading whitespace. The
`fuel` bounds the recursion; every recursive call strictly decreases it. -/
def parseVal (fuel : Nat) (cs : List Char) : Option (Json × List Char) :=
  match fuel with
  | 0 => none
  | fuel + 1 =>
    match skipWs cs with
    | [] => none
    | c :: r =>
      if c = '"' then
        (strBody r).map fun p => (Json.str ⟨p.1⟩, p.2)
      else if c = '[' then
        match skipWs r with
        | [] => none
        | c2 :: r2 =>
          if c2 = ']' then some (.arr [], r2)
          else (parseItems fuel (c2 :: r2)).map fun q => (Json.arr q.1, q.2)
      else if c = '\x7b' then
        match skipWs r with
        | [] => none
        | c2 :: r2 =>
          if c2 = '\x7d' then some (.obj [], r2)
          else (parseFields fuel (c2 :: r2)).map fun q => (Json.obj q.1, q.2)
      else none

/-- Parse the one-or-more comma-separated elements of an array, up to and
including the closing bracket. -/
def parseItems (fuel : Nat) (cs : List Char) : Option (List Json × List Char) :=
  match fuel with
  | 0 => none
  | fuel + 1 =>
    (parseVal fuel cs).bind fun p =>
      match skipWs p.2 with
      | [] => none
      | c :: r2 =>
        if c = ',' then (parseItems fuel r2).map fun q => (p.1 :: q.1, q.2)
        else if c = ']' then some ([p.1], r2)
        else none

/-- Parse the one-or-more comma-separated `"key": value` members of an object,
up to and including the closing brace. -/
def parseFields (fuel : Nat) (cs : List Char) :
    Option (List (String × Json) × List Char) :=
  match fuel with
  | 0 => none
  | fuel + 1 =>
    match skipWs cs with
    | [] => none
    | c :: r =>
      if c = '"' then
        (strBody r).bind fun pk =>
          match skipWs pk.2 with
          | [] => none
          | c2 :: r2 =>
            if c2 = ':' then
              (parseVal fuel r2).bind fun pv =>
                match skipWs pv.2 with
                | [] => none
                | c3 :: r4 =>
                  if c3 = ',' then
                    (parseFields fuel r4).map fun q => ((⟨pk.1⟩, pv.1) :: q.1, q.2)
                  else if c3 = '\x7d' then some ([(⟨pk.1⟩, pv.1)], r4)
                  else none
            else none
      else none

end

/-- Parse a complete JSON text: one value followed only by whitespace.
`none` models `json.load` raising `JSONDecodeError`. -/
def parseTop (cs : List Char) : Option Json :=
  match parseVal (cs.length + 1) cs with
  | some (j, r) => if skipWs r = [] then some j else none
  | none => none

/-- The JSON shape of one persisted author record (keys in the insertion
order `add_article` uses). -/
def authorRecToJson (a : AuthorRec) : Json :=
  .obj [("name", .str a.name), ("email", .str a.email)]

/-- The JSON shape of one persisted category record. -/
def categoryRecToJson (c : CategoryRec) : Json :=
  .obj [("name", .str c.name)]

/-- The JSON shape of one persisted article record. -/
def articleRecToJson (a : ArticleRec) : Json :=
  .obj [("title", .str a.title), ("content", .str a.content),
        ("author", .str a.author), ("category", .str a.category),
        ("published_at", .str a.published_at)]

/-- The JSON shape of the whole document, as `json.dump` receives it. -/
def docToJson (d : Document) : Json :=
  .obj [("authors", .arr (d.authors.map authorRecToJson)),
        ("categories", .arr (d.categories.map categoryRecToJson)),
        ("articles", .arr (d.articles.map articleRecToJson))]

/-- Read an author record back out of its JSON shape. -/
def authorRecOfJson : Json → Option AuthorRec
  | .obj [("name", .str n), ("email", .str e)] => some ⟨n, e⟩
  | _ => none

/-- Read a category record back out of its JSON shape. -/
def categoryRecOfJson : Json → Option CategoryRec
  | .obj [("name", .str n)] => some ⟨n⟩
  | _ => none

/-- Read an article record back out of its JSON shape. -/
def articleRecOfJson : Json → Option ArticleRec
  | .obj [("title", .str t), ("content", .str c), ("author", .str a),
          ("category", .str g), ("published_at", .str p)] => some ⟨t, c, a, g, p⟩
  | _ => none

/-- Read every element of a JSON array through `f`, failing if any fails. -/
def seqOption (f : Json → Option α) : List Json → Option (List α)
  | [] => some []
  | j :: js =>
    match f j, seqOption f js with
    | some a, some l => some (a :: l)
    | _, _ => none

/-- Read a document back out of its JSON shape. -/
def docOfJson : Json → Option Document
  | .obj [("authors", .arr la), ("categories", .arr lc), ("articles", .arr lr)] =>
    match seqOption authorRecOfJson la, seqOption categoryRecOfJson lc,
          seqOption articleRecOfJson lr with
    | some a, some c, some r => some ⟨a, c, r⟩
    | _, _, _ => none
  | _ => none

/-- The text `CatalogManager.save` writes for document `d`:
`json.dump(self.data, file, indent=4)`. -/
def saveString (d : Document) : List Char := prettyL 0 (docToJson d)

/-- Model of `CatalogManager.load` over the backing file's state: an absent file
(`FileNotFoundError`) is replaced by the canonical empty document; an existing
file is handed to the JSON parser, whose failure (`none`, the model of
`json.JSONDecodeError`) propagates. -/
def load (file : Option (List Char)) : Option Json :=
  match file with
  | some cs => parseTop cs
  | none => some (docToJson emptyDocument)

/-- A manager together with the backing file it saves to. -/
structure CatalogSystem where
  manager : CatalogManager
  file : Option (List Char)

/-- Whether the one full-document write inside `save` succeeds or raises
`IOError`; the outcome is an input of the model since it is decided by the
outside world. -/
inductive SaveOutcome : Type
  | ok : SaveOutcome
  | ioError : SaveOutcome

/-- The whole of `CatalogManager.add_article`, steps 1-5 (`add_article_data`)
followed by `self.save()`. On a successful save the new document text is on
disk and the constructed `Article` is returned; on `IOError` the exception
propagates (no return value), the file keeps its previous content, and the
already-mutated in-memory state stays. -/
def add_article (sys : CatalogSystem) (r : AddRequest) (save : SaveOutcome) :
    CatalogSystem × Option Article :=
  let step := add_article_data sys.manager r.name r.email r.category r.title r.content r.now
  match save with
  | .ok => (⟨step.1, some (saveString step.1.data)⟩, some step.2)
  | .ioError => (⟨step.1, sys.file⟩, none)

/-- C9. When the save raises, `add_article` fails (returns no article) and the
file is untouched, but the in-memory document has already been extended and
the in-memory mappings already updated by the reconciler — memory runs ahead
of persisted state. -/
theorem addArticle_not_atomic_on_save_error (sys : CatalogSystem) (r : AddRequest) :
    (add_article sys r .ioError).2 = none
      ∧ (add_article sys r .ioError).1.file = sys.file
      ∧ (add_article sys r .ioError).1.manager
          = (add_article_data sys.manager r.name r.email r.category r.title r.content r.now).1
      ∧ (add_article sys r .ioError).1.manager.data.articles
          = sys.manager.data.articles
              ++ [⟨r.title, r.content,
                   (get_or_create_author r.name r.email sys.manager.authors).1.email,
                   (get_or_create_category r.category sys.manager.categories).1.name, r.now⟩]
      ∧ (add_article sys r .ioError).1.manager.authors
          = (get_or_create_author r.name r.email sys.manager.authors).2 :=
  ⟨rfl, rfl, rfl, rfl, rfl⟩

/-! ### Round-trip lemmas: whitespace, shapes, string escapes -/

/-- Lists made of JSON whitespace only. -/
def AllWs (w : List Char) : Prop := ∀ c ∈ w, isWsChar c = true

theorem skipWs_append_ws (w : List Char) (hw : AllWs w) (cs : List Char) :
    skipWs (w ++ cs) = skipWs cs := by
  induction w with
  | nil => rfl
  | cons c t ih =>
    rw [List.cons_append, skipWs, if_pos (hw c (List.mem_cons_self c t)),
      ih (fun x hx => hw x (List.mem_cons_of_mem c hx))]

theorem skipWs_not_ws (c : Char) (cs : List Char) (hc : isWsChar c = false) :
    skipWs (c :: cs) = c :: cs := by
  rw [skipWs, if_neg]
  rw [hc]
  exact Bool.false_ne_true

theorem allWs_nlIndent (lvl : Nat) : AllWs (nlIndent lvl) := by
  intro c hc
  rw [nlIndent, List.mem_cons] at hc
  rcases hc with h | h
  · rw [h]; decide
  · rw [List.eq_of_mem_replicate h]; decide

/-- Every pretty-printed value starts with `"`, `[` or the opening brace. -/
theorem prettyL_head (lvl : Nat) (j : Json) :
    ∃ t : List Char, prettyL lvl j = '"' :: t ∨ prettyL lvl j = '[' :: t
      ∨ prettyL lvl j = '\x7b' :: t := by
  cases j with
  | str s => exact ⟨escBody s.data ++ ['"'], Or.inl (by simp [prettyL, quoteL])⟩
  | arr l =>
    cases l with
    | nil => exact ⟨[']'], Or.inr (Or.inl (by simp [prettyL]))⟩
    | cons x xs =>
      exact ⟨nlIndent (lvl + 1) ++ itemsL (lvl + 1) x xs ++ nlIndent lvl ++ [']'],
        Or.inr (Or.inl (by simp [prettyL]))⟩
  | obj l =>
    cases l with
    | nil => exact ⟨['\x7d'], Or.inr (Or.inr (by simp [prettyL]))⟩
    | cons f fs =>
      obtain ⟨k, v⟩ := f
      exact ⟨nlIndent (lvl + 1) ++ fieldsL (lvl + 1) k v fs ++ nlIndent lvl ++ ['\x7d'],
        Or.inr (Or.inr (by simp [prettyL]))⟩

/-- The head of a pretty-printed value is no whitespace and no closer. -/
theorem prettyL_cons (lvl : Nat) (j : Json) :
    ∃ c t, prettyL lvl j = c :: t ∧ isWsChar c = false ∧ c ≠ ']' ∧ c ≠ '\x7d' := by
  obtain ⟨t, h | h | h⟩ := prettyL_head lvl j
  · exact ⟨'"', t, h, by decide, by decide, by decide⟩
  · exact ⟨'[', t, h, by decide, by decide, by decide⟩
  · exact ⟨'\x7b', t, h, by decide, by decide, by decide⟩

theorem skipWs_prettyL (lvl : Nat) (j : Json) (x : List Char) :
    skipWs (prettyL lvl j ++ x) = prettyL lvl j ++ x := by
  obtain ⟨c, t, hct, hws, _, _⟩ := prettyL_cons lvl j
  rw [hct, List.cons_append, skipWs_not_ws c _ hws]

theorem hexVal_hexDig (k : Nat) (h : k < 16) : hexVal (hexDig k) = some k := by
  interval_cases k <;> decide

theorem strBody_escChar (c : Char) (rest : List Char) :
    strBody (escChar c ++ rest) = (strBody rest).map fun p => (c :: p.1, p.2) := by
  rw [escChar]
  by_cases h1 : c = '"'
  · rw [if_pos h1, h1]
    cases hr : strBody rest <;> simp [strBody, shortEsc, hr]
  by_cases h2 : c = '\\'
  · rw [if_neg h1, if_pos h2, h2]
    cases hr : strBody rest <;> simp [strBody, shortEsc, hr]
  by_cases h3 : c.toNat < 32
  · rw [if_neg h1, if_neg h2, if_pos h3]
    have hd1 : hexVal (hexDig (c.toNat / 16)) = some (c.toNat / 16) :=
      hexVal_hexDig _ (by omega)
    have hd2 : hexVal (hexDig (c.toNat % 16)) = some (c.toNat % 16) :=
      hexVal_hexDig _ (by omega)
    have harith : c.toNat / 16 * 16 + c.toNat % 16 = c.toNat := by
      omega
    have h0 : hexVal '0' = some 0 := by decide
    cases hr : strBody rest <;>
      simp [strBody, hr, h0, hd1, hd2, harith, Char.ofNat_toNat]
  · rw [if_neg h1, if_neg h2, if_neg h3, List.singleton_append]
    conv_lhs => rw [strBody.eq_def]
    simp only [if_neg h1, if_neg h2]
    cases hr : strBody rest <;> simp [hr]

theorem strBody_escBody (l : List Char) : ∀ rest : List Char,
    strBody (escBody l ++ ('"' :: rest)) = some (l, rest) := by
  induction l with
  | nil =>
    intro rest
    rw [escBody, List.nil_append, strBody.eq_def]
    simp
  | cons c t ih =>
    intro rest
    rw [escBody, List.append_assoc, strBody_escChar, ih rest]
    rfl

/-- The full string-literal round trip, stated on `quoteL`. -/
theorem strBody_quoteL (s : String) (rest : List Char) :
    strBody (escBody s.data ++ ('"' :: rest)) = some (s.data, rest) :=
  strBody_escBody s.data rest

theorem stringMk_data (s : String) : String.mk s.data = s := rfl

theorem itemsL_head (lvl : Nat) (x : Json) (xs : List Json) :
    ∃ c t, itemsL lvl x xs = c :: t ∧ isWsChar c = false ∧ c ≠ ']' ∧ c ≠ '\x7d' := by
  obtain ⟨c, t, hct, h1, h2, h3⟩ := prettyL_cons lvl x
  cases xs with
  | nil => exact ⟨c, t, by simp [itemsL, hct], h1, h2, h3⟩
  | cons y ys =>
    exact ⟨c, t ++ ',' :: (nlIndent lvl ++ itemsL lvl y ys), by simp [itemsL, hct], h1, h2, h3⟩

theorem fieldsL_quote (lvl : Nat) (k : String) (v : Json) (fs : List (String × Json)) :
    ∃ t, fieldsL lvl k v fs = '"' :: t := by
  cases fs with
  | nil =>
    exact ⟨escBody k.data ++ ['"'] ++ (':' :: ' ' :: prettyL lvl v), by simp [fieldsL, quoteL]⟩
  | cons g gs =>
    obtain ⟨k2, v2⟩ := g
    exact ⟨escBody k.data ++ ['"']
        ++ (':' :: ' ' :: (prettyL lvl v ++ ',' :: (nlIndent lvl ++ fieldsL lvl k2 v2 gs))),
      by simp [fieldsL, quoteL]⟩

/-! Unfoldings of the parser at successor fuel (all definitional). -/

theorem parseVal_quote (f : Nat) (X : List Char) :
    parseVal (f + 1) ('"' :: X) = (strBody X).map fun p => (Json.str ⟨p.1⟩, p.2) := rfl

theorem parseVal_bracket (f : Nat) (cs : List Char) :
    parseVal (f + 1) ('[' :: cs)
      = match skipWs cs with
        | [] => none
        | c :: t =>
          if c = ']' then some (Json.arr [], t)
          else (parseItems f (c :: t)).map fun q => (Json.arr q.1, q.2) := rfl

theorem parseVal_brace (f : Nat) (cs : List Char) :
    parseVal (f + 1) ('\x7b' :: cs)
      = match skipWs cs with
        | [] => none
        | c :: t =>
          if c = '\x7d' then some (Json.obj [], t)
          else (parseFields f (c :: t)).map fun q => (Json.obj q.1, q.2) := rfl

theorem parseItems_succ (f : Nat) (cs : List Char) :
    parseItems (f + 1) cs
      = (parseVal f cs).bind fun p =>
          match skipWs p.2 with
          | [] => none
          | c :: r2 =>
            if c = ',' then (parseItems f r2).map fun q => (p.1 :: q.1, q.2)
            else if c = ']' then some ([p.1], r2)
            else none := rfl

theorem parseFields_quote (f : Nat) (X : List Char) :
    parseFields (f + 1) ('"' :: X)
      = (strBody X).bind fun pk =>
          match skipWs pk.2 with
          | [] => none
          | c2 :: r2 =>
            if c2 = ':' then
              (parseVal f r2).bind fun pv =>
                match skipWs pv.2 with
                | [] => none
                | c3 :: r4 =>
                  if c3 = ',' then
                    (parseFields f r4).map fun q => ((⟨pk.1⟩, pv.1) :: q.1, q.2)
                  else if c3 = '\x7d' then some ([(⟨pk.1⟩, pv.1)], r4)
                  else none
            else none := rfl

/-! Leading whitespace is irrelevant to each parsing function. -/

theorem parseVal_ws (fuel : Nat) (w cs : List Char) (hw : AllWs w) :
    parseVal fuel (w ++ cs) = parseVal fuel cs := by
  cases fuel with
  | zero => rfl
  | succ f =>
    conv_lhs => rw [parseVal]
    conv_rhs => rw [parseVal]
    rw [skipWs_append_ws w hw]

theorem parseItems_ws (fuel : Nat) (w cs : List Char) (hw : AllWs w) :
    parseItems fuel (w ++ cs) = parseItems fuel cs := by
  cases fuel with
  | zero => rfl
  | succ f =>
    rw [parseItems_succ, parseItems_succ, parseVal_ws f w cs hw]

theorem parseFields_ws (fuel : Nat) (w cs : List Char) (hw : AllWs w) :
    parseFields fuel (w ++ cs) = parseFields fuel cs := by
  cases fuel with
  | zero => rfl
  | succ f =>
    conv_lhs => rw [parseFields]
    conv_rhs => rw [parseFields]
    rw [skipWs_append_ws w hw]

theorem allWs_single_space : AllWs [' '] := by
  intro c hc
  rw [List.mem_singleton] at hc
  rw [hc]
  decide

/-! Length bookkeeping for the fuel bounds. -/

theorem nlIndent_length (lvl : Nat) : (nlIndent lvl).length = 4 * lvl + 1 := by
  simp [nlIndent]

theorem quoteL_two_le (s : String) : 2 ≤ (quoteL s).length := by
  simp only [quoteL, List.length_cons, List.length_append, List.length_singleton]
  omega

theorem prettyL_two_le (lvl : Nat) (j : Json) : 2 ≤ (prettyL lvl j).length := by
  cases j with
  | str s =>
    have h := quoteL_two_le s
    simpa [prettyL] using h
  | arr l =>
    cases l with
    | nil => simp [prettyL]
    | cons x xs =>
      simp only [prettyL, List.length_cons, List.length_append]
      omega
  | obj l =>
    cases l with
    | nil => simp [prettyL]
    | cons g gs =>
      obtain ⟨k, v⟩ := g
      simp only [prettyL, List.length_cons, List.length_append]
      omega

theorem prettyL_arr_cons_length (lvl : Nat) (x : Json) (xs : List Json) :
    (prettyL lvl (Json.arr (x :: xs))).length
      = (itemsL (lvl + 1) x xs).length + 8 * lvl + 8 := by
  simp only [prettyL, List.length_cons, List.length_append, nlIndent_length,
    List.length_singleton, List.length_nil]
  omega

theorem prettyL_obj_cons_length (lvl : Nat) (k : String) (v : Json)
    (fs : List (String × Json)) :
    (prettyL lvl (Json.obj ((k, v) :: fs))).length
      = (fieldsL (lvl + 1) k v fs).length + 8 * lvl + 8 := by
  simp only [prettyL, List.length_cons, List.length_append, nlIndent_length,
    List.length_singleton, List.length_nil]
  omega

theorem itemsL_nil_length (lvl : Nat) (x : Json) :
    (itemsL lvl x []).length = (prettyL lvl x).length := by
  simp [itemsL]

theorem itemsL_cons_length (lvl : Nat) (x y : Json) (ys : List Json) :
    (itemsL lvl x (y :: ys)).length
      = (prettyL lvl x).length + (itemsL lvl y ys).length + 4 * lvl + 2 := by
  simp only [itemsL, List.length_append, List.length_cons, nlIndent_length]
  omega

theorem fieldsL_nil_length (lvl : Nat) (k : String) (v : Json) :
    (fieldsL lvl k v []).length = (quoteL k).length + (prettyL lvl v).length + 2 := by
  simp only [fieldsL, List.length_append, List.length_cons]
  omega

theorem fieldsL_cons_length (lvl : Nat) (k : String) (v : Json) (k2 : String) (v2 : Json)
    (gs : List (String × Json)) :
    (fieldsL lvl k v ((k2, v2) :: gs)).length
      = (quoteL k).length + (prettyL lvl v).length + (fieldsL lvl k2 v2 gs).length
          + 4 * lvl + 4 := by
  simp only [fieldsL, List.length_append, List.length_cons, nlIndent_length]
  omega

/-- The parser inverts the pretty-printer: the joint induction on fuel for
values, array elements, and object members. -/
theorem parse_prettyL (fuel : Nat) :
    (∀ (j : Json) (lvl : Nat) (rest : List Char), (prettyL lvl j).length < fuel →
        parseVal fuel (prettyL lvl j ++ rest) = some (j, rest))
    ∧ (∀ (x : Json) (xs : List Json) (lvl : Nat) (w rest : List Char), AllWs w →
        (itemsL lvl x xs).length + 1 < fuel →
        parseItems fuel (itemsL lvl x xs ++ (w ++ (']' :: rest))) = some (x :: xs, rest))
    ∧ (∀ (k : String) (v : Json) (fs : List (String × Json)) (lvl : Nat) (w rest : List Char),
        AllWs w → (fieldsL lvl k v fs).length + 1 < fuel →
        parseFields fuel (fieldsL lvl k v fs ++ (w ++ ('\x7d' :: rest)))
          = some ((k, v) :: fs, rest)) := by
  induction fuel with
  | zero =>
    exact ⟨fun j lvl rest h => absurd h (Nat.not_lt_zero _),
           fun x xs lvl w rest _ h => absurd h (Nat.not_lt_zero _),
           fun k v fs lvl w rest _ h => absurd h (Nat.not_lt_zero _)⟩
  | succ f ih =>
    obtain ⟨ihv, ihi, ihf⟩ := ih
    refine ⟨?_, ?_, ?_⟩
    · intro j lvl rest hlen
      cases j with
      | str s =>
        have hshape : prettyL lvl (Json.str s) ++ rest
            = '"' :: (escBody s.data ++ ('"' :: rest)) := by
          simp [prettyL, quoteL]
        rw [hshape, parseVal_quote, strBody_escBody s.data rest, Option.map_some',
          stringMk_data]
      | arr l =>
        cases l with
        | nil =>
          have hshape : prettyL lvl (Json.arr []) ++ rest = '[' :: (']' :: rest) := by
            simp [prettyL]
          rw [hshape, parseVal_bracket, skipWs_not_ws ']' rest (by decide)]
          rfl
        | cons x xs =>
          rw [prettyL_arr_cons_length] at hlen
          have hlen2 : (itemsL (lvl + 1) x xs).length + 1 < f := by omega
          obtain ⟨c, t, hct, hcw, hcb, _⟩ := itemsL_head (lvl + 1) x xs
          have hshape : prettyL lvl (Json.arr (x :: xs)) ++ rest
              = '[' :: (nlIndent (lvl + 1)
                  ++ (itemsL (lvl + 1) x xs ++ (nlIndent lvl ++ (']' :: rest)))) := by
            simp [prettyL]
          have hskip : skipWs (nlIndent (lvl + 1)
                ++ (itemsL (lvl + 1) x xs ++ (nlIndent lvl ++ (']' :: rest))))
              = c :: (t ++ (nlIndent lvl ++ (']' :: rest))) := by
            rw [skipWs_append_ws _ (allWs_nlIndent (lvl + 1)), hct, List.cons_append,
              skipWs_not_ws c _ hcw]
          rw [hshape, parseVal_bracket, hskip]
          simp only [if_neg hcb]
          rw [← List.cons_append, ← hct,
            ihi x xs (lvl + 1) (nlIndent lvl) rest (allWs_nlIndent lvl) hlen2,
            Option.map_some']
      | obj l =>
        cases l with
        | nil =>
          have hshape : prettyL lvl (Json.obj []) ++ rest = '\x7b' :: ('\x7d' :: rest) := by
            simp [prettyL]
          rw [hshape, parseVal_brace, skipWs_not_ws '\x7d' rest (by decide)]
          rfl
        | cons g gs =>
          obtain ⟨k, v⟩ := g
          rw [prettyL_obj_cons_length] at hlen
          have hlen2 : (fieldsL (lvl + 1) k v gs).length + 1 < f := by omega
          obtain ⟨t, hct⟩ := fieldsL_quote (lvl + 1) k v gs
          have hshape : prettyL lvl (Json.obj ((k, v) :: gs)) ++ rest
              = '\x7b' :: (nlIndent (lvl + 1)
                  ++ (fieldsL (lvl + 1) k v gs ++ (nlIndent lvl ++ ('\x7d' :: rest)))) := by
            simp [prettyL]
          have hskip : skipWs (nlIndent (lvl + 1)
                ++ (fieldsL (lvl + 1) k v gs ++ (nlIndent lvl ++ ('\x7d' :: rest))))
              = '"' :: (t ++ (nlIndent lvl ++ ('\x7d' :: rest))) := by
            rw [skipWs_append_ws _ (allWs_nlIndent (lvl + 1)), hct, List.cons_append,
              skipWs_not_ws '"' _ (by decide)]
          rw [hshape, parseVal_brace, hskip]
          simp only [if_neg (by decide : ¬('"' : Char) = '\x7d')]
          rw [← List.cons_append, ← hct,
            ihf k v gs (lvl + 1) (nlIndent lvl) rest (allWs_nlIndent lvl) hlen2,
            Option.map_some']
    · intro x xs lvl w rest hw hlen
      cases xs with
      | nil =>
        rw [itemsL_nil_length] at hlen
        have hlx : (prettyL lvl x).length < f := by omega
        have h0 : itemsL lvl x [] = prettyL lvl x := by simp [itemsL]
        rw [h0, parseItems_succ, ihv x lvl (w ++ (']' :: rest)) hlx, Option.some_bind]
        simp only
        rw [skipWs_append_ws w hw, skipWs_not_ws ']' rest (by decide)]
        simp
      | cons y ys =>
        rw [itemsL_cons_length] at hlen
        have hlx : (prettyL lvl x).length < f := by
          have h2 := prettyL_two_le lvl y
          have h3 : (prettyL lvl y).length ≤ (itemsL lvl y ys).length := by
            cases ys with
            | nil => rw [itemsL_nil_length]
            | cons z zs => rw [itemsL_cons_length]; omega
          omega
        have hlrec : (itemsL lvl y ys).length + 1 < f := by
          have h2 := prettyL_two_le lvl x
          omega
        have hshape : itemsL lvl x (y :: ys) ++ (w ++ (']' :: rest))
            = prettyL lvl x
                ++ (',' :: (nlIndent lvl ++ (itemsL lvl y ys ++ (w ++ (']' :: rest))))) := by
          simp [itemsL]
        have hws2 : parseItems f (nlIndent lvl ++ (itemsL lvl y ys ++ (w ++ (']' :: rest))))
            = parseItems f (itemsL lvl y ys ++ (w ++ (']' :: rest))) :=
          parseItems_ws f _ _ (allWs_nlIndent lvl)
        have hrec := ihi y ys lvl w rest hw hlrec
        rw [hshape, parseItems_succ,
          ihv x lvl (',' :: (nlIndent lvl ++ (itemsL lvl y ys ++ (w ++ (']' :: rest))))) hlx,
          Option.some_bind]
        simp only
        rw [skipWs_not_ws ',' _ (by decide)]
        simp only [hws2, hrec, Option.map_some']
        simp
    · intro k v fs lvl w rest hw hlen
      cases fs with
      | nil =>
        rw [fieldsL_nil_length] at hlen
        have hlv : (prettyL lvl v).length < f := by
          have h2 := quoteL_two_le k
          omega
        have hshape : fieldsL lvl k v [] ++ (w ++ ('\x7d' :: rest))
            = '"' :: (escBody k.data
                ++ ('"' :: (':' :: (' ' :: (prettyL lvl v ++ (w ++ ('\x7d' :: rest))))))) := by
          simp [fieldsL, quoteL]
        have hv1 : parseVal f (' ' :: (prettyL lvl v ++ (w ++ ('\x7d' :: rest))))
            = some (v, w ++ ('\x7d' :: rest)) := by
          have h := parseVal_ws f [' '] (prettyL lvl v ++ (w ++ ('\x7d' :: rest)))
            allWs_single_space
          rw [List.singleton_append] at h
          rw [h, ihv v lvl _ hlv]
        have hsw : skipWs (w ++ ('\x7d' :: rest)) = '\x7d' :: rest := by
          rw [skipWs_append_ws w hw, skipWs_not_ws _ _ (by decide)]
        rw [hshape, parseFields_quote, strBody_escBody k.data _, Option.some_bind]
        simp only
        rw [skipWs_not_ws ':' _ (by decide)]
        simp only [hv1, Option.some_bind, hsw, stringMk_data]
        simp
      | cons g gs =>
        obtain ⟨k2, v2⟩ := g
        rw [fieldsL_cons_length] at hlen
        have hlv : (prettyL lvl v).length < f := by
          have h2 := quoteL_two_le k
          have h3 : 2 ≤ (fieldsL lvl k2 v2 gs).length := by
            cases gs with
            | nil => rw [fieldsL_nil_length]; have := quoteL_two_le k2; omega
            | cons g2 gs2 =>
              obtain ⟨k3, v3⟩ := g2
              rw [fieldsL_cons_length]
              have := quoteL_two_le k2
              omega
          omega
        have hlrec : (fieldsL lvl k2 v2 gs).length + 1 < f := by
          have h2 := quoteL_two_le k
          have h3 := prettyL_two_le lvl v
          omega
        have hshape : fieldsL lvl k v ((k2, v2) :: gs) ++ (w ++ ('\x7d' :: rest))
            = '"' :: (escBody k.data
                ++ ('"' :: (':' :: (' ' :: (prettyL lvl v
                    ++ (',' :: (nlIndent lvl
                        ++ (fieldsL lvl k2 v2 gs ++ (w ++ ('\x7d' :: rest)))))))))) := by
          simp [fieldsL, quoteL]
        have hv1 : parseVal f (' ' :: (prettyL lvl v
              ++ (',' :: (nlIndent lvl ++ (fieldsL lvl k2 v2 gs ++ (w ++ ('\x7d' :: rest)))))))
            = some (v, ',' :: (nlIndent lvl
                ++ (fieldsL lvl k2 v2 gs ++ (w ++ ('\x7d' :: rest))))) := by
          have h := parseVal_ws f [' '] (prettyL lvl v
            ++ (',' :: (nlIndent lvl ++ (fieldsL lvl k2 v2 gs ++ (w ++ ('\x7d' :: rest))))))
            allWs_single_space
          rw [List.singleton_append] at h
          rw [h, ihv v lvl _ hlv]
        have hws2 : parseFields f (nlIndent lvl
              ++ (fieldsL lvl k2 v2 gs ++ (w ++ ('\x7d' :: rest))))
            = parseFields f (fieldsL lvl k2 v2 gs ++ (w ++ ('\x7d' :: rest))) :=
          parseFields_ws f _ _ (allWs_nlIndent lvl)
        have hrec := ihf k2 v2 gs lvl w rest hw hlrec
        rw [hshape, parseFields_quote, strBody_escBody k.data _, Option.some_bind]
        simp only
        rw [skipWs_not_ws ':' _ (by decide)]
        simp only [hv1, Option.some_bind]
        rw [skipWs_not_ws ',' _ (by decide)]
        simp only [hws2, hrec, Option.map_some', stringMk_data]
        simp

/-- Parsing a complete pretty-printed value recovers it exactly. -/
theorem parseTop_prettyL (j : Json) : parseTop (prettyL 0 j) = some j := by
  have h : parseVal ((prettyL 0 j).length + 1) (prettyL 0 j) = some (j, []) := by
    have h2 := (parse_prettyL ((prettyL 0 j).length + 1)).1 j 0 [] (by omega)
    rwa [List.append_nil] at h2
  rw [parseTop, h]
  rfl

theorem authorRec_json_round (a : AuthorRec) :
    authorRecOfJson (authorRecToJson a) = some a := rfl

theorem categoryRec_json_round (c : CategoryRec) :
    categoryRecOfJson (categoryRecToJson c) = some c := rfl

theorem articleRec_json_round (a : ArticleRec) :
    articleRecOfJson (articleRecToJson a) = some a := rfl

theorem seqOption_map (f : Json → Option α) (g : α → Json)
    (h : ∀ a, f (g a) = some a) (l : List α) : seqOption f (l.map g) = some l := by
  induction l with
  | nil => rfl
  | cons a t ih => simp [seqOption, h a, ih]

theorem docOfJson_docToJson (d : Document) : docOfJson (docToJson d) = some d := by
  obtain ⟨la, lc, lr⟩ := d
  have h1 : seqOption authorRecOfJson (la.map authorRecToJson) = some la :=
    seqOption_map _ _ authorRec_json_round la
  have h2 : seqOption categoryRecOfJson (lc.map categoryRecToJson) = some lc :=
    seqOption_map _ _ categoryRec_json_round lc
  have h3 : seqOption articleRecOfJson (lr.map articleRecToJson) = some lr :=
    seqOption_map _ _ articleRec_json_round lr
  show (match seqOption authorRecOfJson (la.map authorRecToJson),
          seqOption categoryRecOfJson (lc.map categoryRecToJson),
          seqOption articleRecOfJson (lr.map articleRecToJson) with
        | some a, some c, some r => some (⟨a, c, r⟩ : Document)
        | _, _, _ => none) = some ⟨la, lc, lr⟩
  rw [h1, h2, h3]

/-- C8. Saving any document and loading the result back succeeds and
reproduces exactly the same field values: the parsed JSON value is the
document's JSON shape, and reading the records back out of it yields the
document unchanged. -/
theorem save_load_round_trip (d : Document) :
    load (some (saveString d)) = some (docToJson d)
      ∧ docOfJson (docToJson d) = some d
      ∧ (load (some (saveString d))).bind docOfJson = some d := by
  have h1 : load (some (saveString d)) = some (docToJson d) := parseTop_prettyL (docToJson d)
  refine ⟨h1, docOfJson_docToJson d, ?_⟩
  rw [h1, Option.some_bind, docOfJson_docToJson d]

/-- C5. `load` substitutes the canonical empty document for an absent file,
returns whatever the parser produces on a well-formed file, and propagates the
parser's failure on a malformed file. -/
theorem load_semantics :
    load none = some (docToJson emptyDocument)
      ∧ (∀ (cs : List Char) (j : Json), parseTop cs = some j → load (some cs) = some j)
      ∧ (∀ cs : List Char, parseTop cs = none → load (some cs) = none) :=
  ⟨rfl, fun _ _ h => h, fun _ h => h⟩

/-- C5 witness: an absent file loads as the empty document, the malformed text
`[` fails, and the well-formed text `[]` loads as the value it denotes. -/
theorem load_semantics_witness :
    load none = some (docToJson emptyDocument)
      ∧ load (some ['[']) = none
      ∧ load (some ['[', ']']) = some (Json.arr []) :=
  ⟨load_semantics.1, load_semantics.2.2 ['['] rfl,
   load_semantics.2.1 ['[', ']'] (Json.arr []) rfl⟩
